import Mathlib

/-!
Verification of the Wasserstein EMD library against its specification.

The development shallowly embeds the C++ sources (`wasserstein/internal/EMDUtils.hh`)
and, where the implementation files are not present in the repository snapshot
(the `_EMD` compute routine, the transportation-problem assembly and the
`PairwiseEMD` driver), models the missing components from the specification.
Values are embedded as rationals (`ℚ`), so "within floating tolerance" becomes
exact equality.
-/

namespace Wasserstein

/-- Status codes reported by the network simplex solver / EMD layer.
Mirrors `enum class EMDStatus` in `EMDUtils.hh` (lines 87-94). -/
inductive EMDStatus where
  | Success
  | Empty
  | SupplyMismatch
  | Unbounded
  | MaxIterReached
  | Infeasible
deriving DecidableEq, Repr

/-- Which event received the extra (dummy) particle.
Mirrors `enum class ExtraParticle { Neither, Zero, One }` in `EMDUtils.hh` (line 95). -/
inductive ExtraParticle where
  | Neither
  | Zero
  | One
deriving DecidableEq, Repr

/-- Storage modes of the pairwise driver.
Mirrors `enum class EMDPairsStorage` in `EMDUtils.hh` (line 96). -/
inductive EMDPairsStorage where
  | Full
  | FullSymmetric
  | FlattenedSymmetric
  | External
deriving DecidableEq, Repr

/-- The name of a status kind, as it appears in the enumerators of `EMDStatus`. -/
def statusName : EMDStatus → String
  | EMDStatus.Success => "Success"
  | EMDStatus.Empty => "Empty"
  | EMDStatus.SupplyMismatch => "SupplyMismatch"
  | EMDStatus.Unbounded => "Unbounded"
  | EMDStatus.MaxIterReached => "MaxIterReached"
  | EMDStatus.Infeasible => "Infeasible"

/-- Embedding of `check_emd_status` (`EMDUtils.hh`, lines 270-291).
The C++ function returns `void` normally on `Success` and throws a
`std::runtime_error` carrying the shown message for every other status; we model
the normal return as `Except.ok ()` and a throw as `Except.error msg`. -/
def check_emd_status : EMDStatus → Except String Unit
  | EMDStatus.Success => Except.ok ()
  | EMDStatus.Empty => Except.error "EMDStatus - Empty"
  | EMDStatus.SupplyMismatch =>
      Except.error "EMDStatus - SupplyMismatch, consider increasing epsilon_large_factor"
  | EMDStatus.Unbounded => Except.error "EMDStatus - Unbounded"
  | EMDStatus.MaxIterReached =>
      Except.error "EMDStatus - MaxIterReached, consider increasing n_iter_max"
  | EMDStatus.Infeasible => Except.error "EMDStatus - Infeasible"

/-- The message carried by the error raised from a status (empty for `Success`). -/
def errorMessage (s : EMDStatus) : String :=
  match check_emd_status s with
  | Except.ok _ => ""
  | Except.error msg => msg

/-- An event is an ordered sequence of (weight, position) particles. -/
abbrev Event (α : Type) : Type := List (ℚ × α)

/-- Cached total weight of an event: the sum of its particles' weights. -/
def totalWeight {α : Type} (e : Event α) : ℚ :=
  (List.map Prod.fst e).sum

/-- Description string of the base `Preprocessor` (`EMDUtils.hh`, line 314). -/
def Preprocessor.description : String := "Preprocessor"

/-- Embedding of the base `Preprocessor::operator()` (`EMDUtils.hh`, line 317):
`virtual Event & operator()(Event & event) const { return event; }`. -/
def Preprocessor.onEvent {α : Type} (event : Event α) : Event α := event

/-- A balanced transportation problem: a list of supplies, a list of demands,
and an arc cost for every (supply index, demand index) pair. -/
structure TransportProblem where
  supplies : List ℚ
  demands : List ℚ
  cost : ℕ → ℕ → ℚ

/-- A flow `f i j` is feasible when it is nonnegative, each supply row sums to
its supply and each demand column sums to its demand. -/
def IsFeasible (P : TransportProblem) (f : ℕ → ℕ → ℚ) : Prop :=
  (∀ i < P.supplies.length, ∀ j < P.demands.length, 0 ≤ f i j) ∧
  (∀ i < P.supplies.length,
    ∑ j ∈ Finset.range P.demands.length, f i j = P.supplies.getD i 0) ∧
  (∀ j < P.demands.length,
    ∑ i ∈ Finset.range P.supplies.length, f i j = P.demands.getD j 0)

/-- Total cost of a flow. -/
def flowCost (P : TransportProblem) (f : ℕ → ℕ → ℚ) : ℚ :=
  ∑ i ∈ Finset.range P.supplies.length,
    ∑ j ∈ Finset.range P.demands.length, f i j * P.cost i j

/-- `v` is the optimal (minimum) transportation cost of `P`: it is attained by
some feasible flow and is a lower bound on the cost of every feasible flow. -/
def IsOptimalValue (P : TransportProblem) (v : ℚ) : Prop :=
  (∃ f, IsFeasible P f ∧ flowCost P f = v) ∧
  (∀ f, IsFeasible P f → v ≤ flowCost P f)

/-- The transposed problem: supplies and demands exchanged, cost transposed. -/
def TransportProblem.transpose (P : TransportProblem) : TransportProblem where
  supplies := P.demands
  demands := P.supplies
  cost := fun i j => P.cost j i

/-- Configuration of a single EMD computation (spec §6): the cutoff `R`, the
distance exponent `beta`, the normalization flag, and the dummy-particle cost
policy (`true` = fixed cutoff distance `R`, `false` = zero). -/
structure EMDConfig where
  R : ℚ
  beta : ℕ
  norm : Bool
  dummyCutoff : Bool

/-- Modelled from the spec: which event receives the dummy particle (spec §3,
"attached to whichever side has smaller total weight; if both sides are exactly
equal, no dummy node is created"), recorded as the `ExtraParticle` enum of
`EMDUtils.hh` (`Zero` = event 0, `One` = event 1). -/
def extraParticleOf {α : Type} (A B : Event α) : ExtraParticle :=
  if totalWeight A = totalWeight B then ExtraParticle.Neither
  else if totalWeight A < totalWeight B then ExtraParticle.Zero
  else ExtraParticle.One

/-- Modelled from the spec: assembly of the balanced transportation problem from
two events (spec §4.2 steps 4-5 and §3 "Transportation Problem"): supplies are
event A's weights, demands event B's weights; a dummy particle absorbing
`|ΣwA − ΣwB|` is appended to the lighter side; real arc costs are the ground
distance raised to the power `beta`; arcs touching the dummy cost `R ^ beta`
under the cutoff policy and `0` under the zero policy. The `_EMD` implementation
is not part of this repository snapshot. -/
def assemble {α : Type} (d : α → α → ℚ) (cfg : EMDConfig) (A B : Event α) :
    TransportProblem where
  supplies :=
    List.map Prod.fst A ++
      (if totalWeight A < totalWeight B then [totalWeight B - totalWeight A] else [])
  demands :=
    List.map Prod.fst B ++
      (if totalWeight B < totalWeight A then [totalWeight A - totalWeight B] else [])
  cost := fun i j =>
    match (List.map Prod.snd A).get? i, (List.map Prod.snd B).get? j with
    | some a, some b => d a b ^ cfg.beta
    | _, _ => if cfg.dummyCutoff then cfg.R ^ cfg.beta else 0

/-- Modelled from the spec: the normalization divisor (spec §4.2 step 7):
`max(ΣwA, ΣwB)` when `norm` is enabled, `1` otherwise. -/
def normFactor {α : Type} (cfg : EMDConfig) (A B : Event α) : ℚ :=
  if cfg.norm then max (totalWeight A) (totalWeight B) else 1

/-- Modelled from the spec: the `_EMD::compute` contract (spec §4.2), as a
relation between the inputs and the returned (value, status) pair, for the
non-failing paths. If both events are empty (ΣwA = ΣwB = 0) the computation
short-circuits to value 0 and status `Empty`; otherwise the solver's optimal
objective for the assembled problem is divided by the normalization factor and
the status is `Success`. The `_EMD` implementation is not part of this
repository snapshot. -/
def Computes {α : Type} (d : α → α → ℚ) (cfg : EMDConfig) (A B : Event α)
    (v : ℚ) (s : EMDStatus) : Prop :=
  if totalWeight A = 0 ∧ totalWeight B = 0 then
    v = 0 ∧ s = EMDStatus.Empty
  else
    s = EMDStatus.Success ∧
    ∃ raw, IsOptimalValue (assemble d cfg A B) raw ∧ v = raw / normFactor cfg A B

/-- The taxicab ground distance on the rational plane, used for concrete
scenarios (it vanishes exactly on equal points). -/
def taxicab (p q : ℚ × ℚ) : ℚ := |p.1 - q.1| + |p.2 - q.2|

/-- Concrete scenario event A of spec §8: one particle of weight 2 at (0,0). -/
def eventA5 : Event (ℚ × ℚ) := [((2 : ℚ), ((0 : ℚ), (0 : ℚ)))]

/-- Concrete scenario event B of spec §8: one particle of weight 1 at (0,0). -/
def eventB5 : Event (ℚ × ℚ) := [((1 : ℚ), ((0 : ℚ), (0 : ℚ)))]

/-- A one-particle event of weight 1 at the origin. -/
def eventUnit : Event (ℚ × ℚ) := [((1 : ℚ), ((0 : ℚ), (0 : ℚ)))]

/-- Configuration R = 5, beta = 1, normalization on, cutoff dummy policy. -/
def cfgNorm5 : EMDConfig := ⟨5, 1, true, true⟩

/-- Configuration R = 5, beta = 1, normalization off, cutoff dummy policy. -/
def cfgRaw5 : EMDConfig := ⟨5, 1, false, true⟩

/-- Configuration R = 1, beta = 0, normalization off, cutoff dummy policy. -/
def cfgBeta0 : EMDConfig := ⟨1, 0, false, true⟩

/-- Configuration R = 1, beta = 1, normalization on, cutoff dummy policy. -/
def cfgNormUnit : EMDConfig := ⟨1, 1, true, true⟩

/-- The identically-zero ground distance (bounded above by every R ≥ 0). -/
def zeroDist (_p _q : ℚ × ℚ) : ℚ := 0

/-- The n-th triangular number, written recursively. -/
def triangle : ℕ → ℕ
  | 0 => 0
  | n + 1 => triangle n + n

/-- Modelled from the spec: the canonical pair-rank function of the
`FlattenedSymmetric` storage mode (spec §10): the slot of the unordered pair
`{i, j}` with `i < j` is `j*(j-1)/2 + i`. The `PairwiseEMD` implementation is
not part of this repository snapshot. -/
def pairIndex (i j : ℕ) : ℕ := j * (j - 1) / 2 + i

/-- Modelled from the spec: the all-pairs sweep of `PairwiseEMD` (spec §4.3)
with `FlattenedSymmetric` storage: unordered pairs `{i, j}`, `i < j`, of a
single collection are visited and the single-pair EMD value is stored at the
pair's rank. The driver applies the same single-pair computation `emdVal` that
a direct call would use. The `PairwiseEMD` implementation is not part of this
repository snapshot. -/
def allPairsSweep {α : Type} (emdVal : Event α → Event α → ℚ)
    (events : List (Event α)) : List ℚ :=
  (List.range events.length).flatMap fun j =>
    (List.range j).map fun i => emdVal (events.getD i []) (events.getD j [])

end Wasserstein

namespace Wasserstein

/-- A list's sum written as a `Finset.range` sum of its `getD` entries. -/
theorem list_sum_eq_range (l : List ℚ) :
    l.sum = ∑ i ∈ Finset.range l.length, l.getD i 0 := by
  induction l with
  | nil => simp
  | cons x xs ih =>
      rw [List.sum_cons, List.length_cons, Finset.sum_range_succ']
      simp [ih, add_comm]

/-- In a problem with a single supply, every feasible flow is forced: the flow
on arc `(0, j)` equals demand `j`. -/
theorem single_supply_flow_forced {P : TransportProblem} {x : ℚ} {f : ℕ → ℕ → ℚ}
    (hs : P.supplies = [x]) (hf : IsFeasible P f) {j : ℕ}
    (hj : j < P.demands.length) :
    f 0 j = P.demands.getD j 0 := by
  have hcol := hf.2.2 j hj
  rw [hs] at hcol
  simpa [Finset.sum_range_one] using hcol

/-- In a problem with a single supply equal to the total demand and nonnegative
demands, the optimal cost is the demand-weighted sum of the arc costs out of
the unique supply (all feasible flows coincide). -/
theorem isOptimal_single_supply {P : TransportProblem} {x : ℚ}
    (hs : P.supplies = [x]) (hd : P.demands.sum = x)
    (hpos : ∀ y ∈ P.demands, 0 ≤ y) :
    IsOptimalValue P
      (∑ j ∈ Finset.range P.demands.length, P.demands.getD j 0 * P.cost 0 j) := by
  have hlen : ([x] : List ℚ).length = 1 := rfl
  constructor
  · refine ⟨fun _ j => P.demands.getD j 0, ⟨?_, ?_, ?_⟩, ?_⟩
    · intro i _ j hj
      show 0 ≤ P.demands.getD j 0
      refine hpos _ ?_
      rw [List.getD_eq_getElem _ _ hj]
      exact List.getElem_mem hj
    · intro i hi
      rw [hs] at hi ⊢
      have hi0 : i = 0 := Nat.lt_one_iff.mp (by simpa using hi)
      subst hi0
      show (∑ j ∈ Finset.range P.demands.length, P.demands.getD j 0) = [x].getD 0 0
      rw [← list_sum_eq_range, hd]
      rfl
    · intro j hj
      rw [hs]
      show (∑ i ∈ Finset.range ([x] : List ℚ).length,
        P.demands.getD j 0) = P.demands.getD j 0
      rw [hlen, Finset.sum_range_one]
    · unfold flowCost
      rw [hs, hlen, Finset.sum_range_one]
  · intro f hf
    have hm : flowCost P f =
        ∑ j ∈ Finset.range P.demands.length, f 0 j * P.cost 0 j := by
      unfold flowCost
      rw [hs, hlen, Finset.sum_range_one]
    rw [hm]
    refine le_of_eq (Finset.sum_congr rfl fun j hj => ?_)
    rw [single_supply_flow_forced hs hf (Finset.mem_range.mp hj)]

/-- A feasible flow over nonnegative arc costs has nonnegative total cost. -/
theorem flowCost_nonneg {P : TransportProblem} {f : ℕ → ℕ → ℚ}
    (hf : IsFeasible P f)
    (hc : ∀ i < P.supplies.length, ∀ j < P.demands.length, 0 ≤ P.cost i j) :
    0 ≤ flowCost P f :=
  Finset.sum_nonneg fun i hi => Finset.sum_nonneg fun j hj =>
    mul_nonneg (hf.1 i (Finset.mem_range.mp hi) j (Finset.mem_range.mp hj))
      (hc i (Finset.mem_range.mp hi) j (Finset.mem_range.mp hj))

/-- A feasible flow over arc costs bounded by `C` has total cost at most
`C` times the total supply. -/
theorem flowCost_le_bound {P : TransportProblem} {f : ℕ → ℕ → ℚ} {C : ℚ}
    (hf : IsFeasible P f)
    (hC : ∀ i < P.supplies.length, ∀ j < P.demands.length, P.cost i j ≤ C) :
    flowCost P f ≤ C * P.supplies.sum := by
  have step : flowCost P f ≤
      ∑ i ∈ Finset.range P.supplies.length, P.supplies.getD i 0 * C := by
    refine Finset.sum_le_sum fun i hi => ?_
    rw [← hf.2.1 i (Finset.mem_range.mp hi), Finset.sum_mul]
    refine Finset.sum_le_sum fun j hj => ?_
    exact mul_le_mul_of_nonneg_left
      (hC i (Finset.mem_range.mp hi) j (Finset.mem_range.mp hj))
      (hf.1 i (Finset.mem_range.mp hi) j (Finset.mem_range.mp hj))
  calc flowCost P f ≤ ∑ i ∈ Finset.range P.supplies.length, P.supplies.getD i 0 * C :=
        step
    _ = (∑ i ∈ Finset.range P.supplies.length, P.supplies.getD i 0) * C :=
        (Finset.sum_mul _ _ _).symm
    _ = P.supplies.sum * C := by rw [← list_sum_eq_range]
    _ = C * P.supplies.sum := mul_comm _ _

/-- The optimal value of a transportation problem is unique. -/
theorem optimal_unique {P : TransportProblem} {v w : ℚ}
    (hv : IsOptimalValue P v) (hw : IsOptimalValue P w) : v = w := by
  obtain ⟨⟨f, hf, hfv⟩, hvmin⟩ := hv
  obtain ⟨⟨g, hg, hgw⟩, hwmin⟩ := hw
  have h1 : v ≤ w := by rw [← hgw]; exact hvmin g hg
  have h2 : w ≤ v := by rw [← hfv]; exact hwmin f hf
  exact le_antisymm h1 h2

/-- Transposing a flow preserves feasibility with respect to the transposed
problem. -/
theorem isFeasible_transpose {P : TransportProblem} {f : ℕ → ℕ → ℚ}
    (hf : IsFeasible P f) : IsFeasible P.transpose (fun i j => f j i) := by
  obtain ⟨h0, hrow, hcol⟩ := hf
  exact ⟨fun i hi j hj => h0 j hj i hi, fun i hi => hcol i hi, fun j hj => hrow j hj⟩

/-- Transposing a flow preserves its cost with respect to the transposed
problem. -/
theorem flowCost_transpose (P : TransportProblem) (f : ℕ → ℕ → ℚ) :
    flowCost P.transpose (fun i j => f j i) = flowCost P f := by
  unfold flowCost TransportProblem.transpose
  exact Finset.sum_comm

/-- The optimal value is invariant under transposition of the problem. -/
theorem isOptimal_transpose {P : TransportProblem} {v : ℚ}
    (h : IsOptimalValue P v) : IsOptimalValue P.transpose v := by
  obtain ⟨⟨f, hf, hfc⟩, hmin⟩ := h
  constructor
  · exact ⟨fun i j => f j i, isFeasible_transpose hf,
      by rw [flowCost_transpose]; exact hfc⟩
  · intro g hg
    have hg' : IsFeasible P (fun i j => g j i) :=
      isFeasible_transpose (P := P.transpose) hg
    have h1 := hmin _ hg'
    have h2 := flowCost_transpose P (fun i j => g j i)
    exact le_of_le_of_eq h1 h2.symm

/-- Swapping the two events yields the transposed transportation problem, for
a symmetric ground distance. -/
theorem assemble_swap {α : Type} (d : α → α → ℚ) (hsym : ∀ a b, d a b = d b a)
    (cfg : EMDConfig) (A B : Event α) :
    assemble d cfg B A = (assemble d cfg A B).transpose := by
  have hsup : (assemble d cfg B A).supplies = (assemble d cfg A B).transpose.supplies :=
    rfl
  have hdem : (assemble d cfg B A).demands = (assemble d cfg A B).transpose.demands :=
    rfl
  have hcost : (assemble d cfg B A).cost = (assemble d cfg A B).transpose.cost := by
    funext i j
    show (assemble d cfg B A).cost i j = (assemble d cfg A B).cost j i
    unfold assemble
    cases hB : (List.map Prod.snd B).get? i <;> cases hA : (List.map Prod.snd A).get? j
    all_goals simp only [hB, hA]
    rw [hsym]
  calc assemble d cfg B A
      = ⟨(assemble d cfg B A).supplies, (assemble d cfg B A).demands,
          (assemble d cfg B A).cost⟩ := rfl
    _ = (assemble d cfg A B).transpose := by rw [hsup, hdem, hcost]

/-- The ground distance used in concrete scenarios is symmetric. -/
theorem taxicab_comm (p q : ℚ × ℚ) : taxicab p q = taxicab q p := by
  unfold taxicab
  rw [abs_sub_comm, abs_sub_comm p.2]

/-- Arc cost between two real particles: the ground distance to the power
`beta`. -/
theorem assemble_cost_eq {α : Type} (d : α → α → ℚ) (cfg : EMDConfig)
    (A B : Event α) {i j : ℕ} (hi : i < A.length) (hj : j < B.length) :
    (assemble d cfg A B).cost i j = d A[i].2 B[j].2 ^ cfg.beta := by
  unfold assemble
  have hA : (List.map Prod.snd A).get? i = some A[i].2 := by
    rw [List.get?_eq_getElem?, List.getElem?_eq_getElem (by simpa using hi),
      List.getElem_map]
  have hB : (List.map Prod.snd B).get? j = some B[j].2 := by
    rw [List.get?_eq_getElem?, List.getElem?_eq_getElem (by simpa using hj),
      List.getElem_map]
  simp only [hA, hB]

/-- Arc cost on an arc touching the dummy node: `R ^ beta` under the cutoff
policy and `0` under the zero policy. -/
theorem assemble_cost_dummy {α : Type} (d : α → α → ℚ) (cfg : EMDConfig)
    (A B : Event α) {i j : ℕ} (h : A.length ≤ i ∨ B.length ≤ j) :
    (assemble d cfg A B).cost i j
      = if cfg.dummyCutoff then cfg.R ^ cfg.beta else 0 := by
  unfold assemble
  cases hA : (List.map Prod.snd A).get? i <;>
    cases hB : (List.map Prod.snd B).get? j
  all_goals simp only [hA, hB]
  exfalso
  have h1 : i < A.length := by
    have := List.get?_eq_some.mp hA
    simpa using this.1
  have h2 : j < B.length := by
    have := List.get?_eq_some.mp hB
    simpa using this.1
  rcases h with h | h
  · exact absurd h1 (not_lt.mpr h)
  · exact absurd h2 (not_lt.mpr h)

/-- For the self-pair (A, A) with a ground distance vanishing on self-pairs,
nonnegative everywhere, nonnegative particle weights and `beta ≠ 0`, the
optimal cost of the assembled problem is 0 (the diagonal flow is feasible and
free, and every flow costs at least 0). -/
theorem isOptimal_self {α : Type} (d : α → α → ℚ) (cfg : EMDConfig)
    (A : Event α) (hd0 : ∀ a b, 0 ≤ d a b) (hself : ∀ a, d a a = 0)
    (hwpos : ∀ p ∈ A, 0 ≤ Prod.fst p) (hβ : cfg.beta ≠ 0) :
    IsOptimalValue (assemble d cfg A A) 0 := by
  have hs : (assemble d cfg A A).supplies = List.map Prod.fst A := by
    simp [assemble]
  have hdm : (assemble d cfg A A).demands = List.map Prod.fst A := by
    simp [assemble]
  constructor
  · refine ⟨fun i j => if i = j then (List.map Prod.fst A).getD i 0 else 0,
      ⟨?_, ?_, ?_⟩, ?_⟩
    · intro i hi j hj
      show 0 ≤ if i = j then (List.map Prod.fst A).getD i 0 else 0
      by_cases hij : i = j
      · rw [if_pos hij]
        rw [hs] at hi
        rw [List.getD_eq_getElem _ _ hi]
        have hmem := List.getElem_mem hi
        obtain ⟨p, hp, hpe⟩ := List.mem_map.mp hmem
        exact hpe ▸ hwpos p hp
      · rw [if_neg hij]
    · intro i hi
      rw [hs] at hi ⊢
      rw [hdm]
      show (∑ j ∈ Finset.range (List.map Prod.fst A).length,
        if i = j then (List.map Prod.fst A).getD i 0 else 0)
          = (List.map Prod.fst A).getD i 0
      rw [Finset.sum_ite_eq, if_pos (Finset.mem_range.mpr hi)]
    · intro j hj
      rw [hdm] at hj ⊢
      rw [hs]
      show (∑ i ∈ Finset.range (List.map Prod.fst A).length,
        if i = j then (List.map Prod.fst A).getD i 0 else 0)
          = (List.map Prod.fst A).getD j 0
      rw [Finset.sum_ite_eq', if_pos (Finset.mem_range.mpr hj)]
    · unfold flowCost
      rw [hs, hdm]
      refine Finset.sum_eq_zero fun i hi => Finset.sum_eq_zero fun j hj => ?_
      show (if i = j then (List.map Prod.fst A).getD i 0 else 0) *
        (assemble d cfg A A).cost i j = 0
      by_cases hij : i = j
      · subst hij
        have hi' : i < A.length := by
          simpa using Finset.mem_range.mp hi
        rw [assemble_cost_eq d cfg A A hi' hi', hself, zero_pow hβ, mul_zero]
      · rw [if_neg hij, zero_mul]
  · intro f hf
    refine flowCost_nonneg hf ?_
    intro i hi j hj
    rw [hs] at hi
    rw [hdm] at hj
    have hi' : i < A.length := by simpa using hi
    have hj' : j < A.length := by simpa using hj
    rw [assemble_cost_eq d cfg A A hi' hj']
    exact pow_nonneg (hd0 _ _) _

end Wasserstein

namespace Wasserstein

/-- Claim C1: `check_emd_status` returns normally exactly on `Success`; on every
other status it raises an error whose message names the status kind, and no
failure is converted into a sentinel numeric value (the model returns no value
at all on failure). -/
theorem check_emd_status_ok_iff_success (s : EMDStatus) :
    (check_emd_status s = Except.ok () ↔ s = EMDStatus.Success) ∧
    (∀ msg : String, check_emd_status s = Except.error msg →
      (statusName s).data <:+: msg.data) := by
  cases s <;>
    refine ⟨by simp [check_emd_status], ?_⟩ <;>
    intro msg hmsg <;>
    simp [check_emd_status] at hmsg <;>
    subst hmsg <;>
    decide

/-- Witness for C1 at the concrete status `MaxIterReached`: the raised message
contains the status kind. -/
theorem check_emd_status_ok_iff_success_witness :
    (statusName EMDStatus.MaxIterReached).data <:+:
      "EMDStatus - MaxIterReached, consider increasing n_iter_max".data :=
  (check_emd_status_ok_iff_success EMDStatus.MaxIterReached).2 _ rfl

/-- Claim C3: the `SupplyMismatch` error message suggests raising
`epsilon_large_factor`, the `MaxIterReached` message suggests raising
`n_iter_max`, and the messages of the remaining error statuses carry the
status kind only (they are exactly `"EMDStatus - <kind>"`). -/
theorem error_messages_carry_remediation :
    "epsilon_large_factor".data <:+: (errorMessage EMDStatus.SupplyMismatch).data ∧
    "n_iter_max".data <:+: (errorMessage EMDStatus.MaxIterReached).data ∧
    errorMessage EMDStatus.Empty = "EMDStatus - " ++ statusName EMDStatus.Empty ∧
    errorMessage EMDStatus.Unbounded = "EMDStatus - " ++ statusName EMDStatus.Unbounded ∧
    errorMessage EMDStatus.Infeasible = "EMDStatus - " ++ statusName EMDStatus.Infeasible := by
  refine ⟨by decide, by decide, rfl, rfl, rfl⟩

/-- Claim C10: the base `Preprocessor`'s call operator is the identity
transform: it returns the very event it was given, unmodified. -/
theorem preprocessor_base_is_identity {α : Type} (event : Event α) :
    Preprocessor.onEvent event = event := rfl

/-- Claim C2: when both events have total weight 0, the compute operation
short-circuits to value 0 with status `Empty`. -/
theorem compute_empty_short_circuit {α : Type} (d : α → α → ℚ) (cfg : EMDConfig)
    (A B : Event α) (v : ℚ) (s : EMDStatus)
    (hA : totalWeight A = 0) (hB : totalWeight B = 0) :
    Computes d cfg A B v s ↔ (v = 0 ∧ s = EMDStatus.Empty) := by
  unfold Computes
  rw [if_pos ⟨hA, hB⟩]

/-- Witness for C2: two empty events compute to value 0, status `Empty`. -/
theorem compute_empty_short_circuit_witness :
    Computes taxicab cfgNorm5 ([] : Event (ℚ × ℚ)) [] 0 EMDStatus.Empty :=
  (compute_empty_short_circuit taxicab cfgNorm5 [] [] 0 EMDStatus.Empty rfl rfl).mpr
    ⟨rfl, rfl⟩

/-- After assembly, the supply side always totals `max(ΣwA, ΣwB)`. -/
theorem assemble_supplies_sum {α : Type} (d : α → α → ℚ) (cfg : EMDConfig)
    (A B : Event α) :
    (assemble d cfg A B).supplies.sum = max (totalWeight A) (totalWeight B) := by
  have hA : (List.map Prod.fst A).sum = totalWeight A := rfl
  rcases lt_trichotomy (totalWeight A) (totalWeight B) with h | h | h
  · rw [max_eq_right h.le]
    simp only [assemble, if_pos h, List.sum_append, List.sum_cons, List.sum_nil, hA]
    ring
  · rw [h, max_self]
    simp only [assemble, if_neg (lt_irrefl (totalWeight B)), List.append_nil, hA, h]
  · rw [max_eq_left h.le]
    simp only [assemble, if_neg (not_lt.mpr h.le), List.append_nil, hA]

/-- After assembly, the demand side always totals `max(ΣwA, ΣwB)`. -/
theorem assemble_demands_sum {α : Type} (d : α → α → ℚ) (cfg : EMDConfig)
    (A B : Event α) :
    (assemble d cfg A B).demands.sum = max (totalWeight A) (totalWeight B) := by
  have hB : (List.map Prod.fst B).sum = totalWeight B := rfl
  rcases lt_trichotomy (totalWeight A) (totalWeight B) with h | h | h
  · rw [max_eq_right h.le]
    simp only [assemble, if_neg (not_lt.mpr h.le), List.append_nil, hB]
  · rw [h, max_self]
    simp only [assemble, h, if_neg (lt_irrefl (totalWeight B)), List.append_nil, hB]
  · rw [max_eq_left h.le]
    simp only [assemble, if_pos h, List.sum_append, List.sum_cons, List.sum_nil, hB]
    ring

/-- Claim C4: the assembled transportation problem has at most one dummy node;
the dummy is attached to the side with the smaller total weight and none is
created when the totals are exactly equal; and after dummy insertion the supply
total equals the demand total (exactly, hence within any tolerance). -/
theorem assemble_dummy_balances {α : Type} (d : α → α → ℚ) (cfg : EMDConfig)
    (A B : Event α) :
    ((assemble d cfg A B).supplies.length + (assemble d cfg A B).demands.length
        ≤ A.length + B.length + 1) ∧
    (totalWeight A = totalWeight B →
      (assemble d cfg A B).supplies = List.map Prod.fst A ∧
      (assemble d cfg A B).demands = List.map Prod.fst B ∧
      extraParticleOf A B = ExtraParticle.Neither) ∧
    (totalWeight A < totalWeight B →
      (assemble d cfg A B).supplies
          = List.map Prod.fst A ++ [totalWeight B - totalWeight A] ∧
      (assemble d cfg A B).demands = List.map Prod.fst B ∧
      extraParticleOf A B = ExtraParticle.Zero) ∧
    (totalWeight B < totalWeight A →
      (assemble d cfg A B).supplies = List.map Prod.fst A ∧
      (assemble d cfg A B).demands
          = List.map Prod.fst B ++ [totalWeight A - totalWeight B] ∧
      extraParticleOf A B = ExtraParticle.One) ∧
    (assemble d cfg A B).supplies.sum = (assemble d cfg A B).demands.sum := by
  refine ⟨?_, ?_, ?_, ?_, ?_⟩
  · rcases lt_trichotomy (totalWeight A) (totalWeight B) with h | h | h
    · simp only [assemble, if_pos h, if_neg (not_lt.mpr h.le), List.length_append,
        List.length_map, List.length_cons, List.length_nil, List.append_nil]
      omega
    · have h1 : ¬ totalWeight A < totalWeight B := not_lt.mpr h.ge
      have h2 : ¬ totalWeight B < totalWeight A := not_lt.mpr h.le
      simp only [assemble, if_neg h1, if_neg h2, List.append_nil, List.length_map]
      omega
    · simp only [assemble, if_pos h, if_neg (not_lt.mpr h.le), List.length_append,
        List.length_map, List.length_cons, List.length_nil, List.append_nil]
      omega
  · intro h
    refine ⟨?_, ?_, ?_⟩
    · simp [assemble, h, lt_irrefl]
    · simp [assemble, h, lt_irrefl]
    · simp [extraParticleOf, h]
  · intro h
    refine ⟨?_, ?_, ?_⟩
    · simp [assemble, if_pos h]
    · simp [assemble, if_neg (not_lt.mpr h.le)]
    · simp [extraParticleOf, ne_of_lt h, if_pos h]
  · intro h
    refine ⟨?_, ?_, ?_⟩
    · simp [assemble, if_neg (not_lt.mpr h.le)]
    · simp [assemble, if_pos h]
    · simp [extraParticleOf, (ne_of_lt h).symm, if_neg (not_lt.mpr h.le)]
  · rw [assemble_supplies_sum, assemble_demands_sum]

/-- For two single-particle events of equal positive weight `wgt`, the compute
relation holds with value `wgt * d(a,b)^beta / normFactor` and status
`Success` (the 1x1 problem has a unique feasible flow). -/
theorem computes_single_single {α : Type} (d : α → α → ℚ) (cfg : EMDConfig)
    (a b : α) (wgt : ℚ) (hw : 0 < wgt) :
    Computes d cfg [(wgt, a)] [(wgt, b)]
      (wgt * d a b ^ cfg.beta / normFactor cfg [(wgt, a)] [(wgt, b)])
      EMDStatus.Success := by
  have htA : totalWeight ([(wgt, a)] : Event α) = wgt := by simp [totalWeight]
  have htB : totalWeight ([(wgt, b)] : Event α) = wgt := by simp [totalWeight]
  unfold Computes
  rw [if_neg (by rw [htA]; exact fun hh => hw.ne' hh.1)]
  refine ⟨rfl, wgt * d a b ^ cfg.beta, ?_, rfl⟩
  have hs : (assemble d cfg [(wgt, a)] [(wgt, b)]).supplies = [wgt] := by
    simp [assemble, htA, htB]
  have hdl : (assemble d cfg [(wgt, a)] [(wgt, b)]).demands = [wgt] := by
    simp [assemble, htA, htB]
  have hopt := isOptimal_single_supply hs (by rw [hdl]; simp)
    (by rw [hdl]; intro y hy; rw [List.mem_singleton] at hy; exact hy ▸ hw.le)
  rw [hdl] at hopt
  have hval : (∑ j ∈ Finset.range (([wgt] : List ℚ).length),
      ([wgt] : List ℚ).getD j 0 * (assemble d cfg [(wgt, a)] [(wgt, b)]).cost 0 j)
      = wgt * d a b ^ cfg.beta := by
    rw [show ([wgt] : List ℚ).length = 1 from rfl, Finset.sum_range_one]
    rfl
  rw [hval] at hopt
  exact hopt

/-- Claim C7: with a symmetric ground distance, the EMD value computed for
(A, B) equals the EMD value computed for (B, A). -/
theorem emd_symmetric {α : Type} (d : α → α → ℚ) (cfg : EMDConfig)
    (A B : Event α) (v w : ℚ) (s t : EMDStatus)
    (hsym : ∀ a b, d a b = d b a)
    (hAB : Computes d cfg A B v s) (hBA : Computes d cfg B A w t) : v = w := by
  unfold Computes at hAB hBA
  by_cases hz : totalWeight A = 0 ∧ totalWeight B = 0
  · rw [if_pos hz] at hAB
    rw [if_pos ⟨hz.2, hz.1⟩] at hBA
    rw [hAB.1, hBA.1]
  · rw [if_neg hz] at hAB
    rw [if_neg (fun hh => hz ⟨hh.2, hh.1⟩)] at hBA
    obtain ⟨-, rawAB, hoptAB, hvAB⟩ := hAB
    obtain ⟨-, rawBA, hoptBA, hvBA⟩ := hBA
    have h1 : IsOptimalValue (assemble d cfg B A) rawAB := by
      rw [assemble_swap d hsym cfg A B]
      exact isOptimal_transpose hoptAB
    have heq : rawBA = rawAB := optimal_unique hoptBA h1
    rw [hvAB, hvBA, heq]
    cases hn : cfg.norm <;> simp [normFactor, hn, max_comm]

/-- Witness for C7: two concrete single-particle events at (0,0) and (1,0)
give the same value in both orders. -/
theorem emd_symmetric_witness :
    1 * taxicab ((0 : ℚ), (0 : ℚ)) ((1 : ℚ), (0 : ℚ)) ^ cfgRaw5.beta /
        normFactor cfgRaw5 [((1 : ℚ), ((0 : ℚ), (0 : ℚ)))]
          [((1 : ℚ), ((1 : ℚ), (0 : ℚ)))]
      = 1 * taxicab ((1 : ℚ), (0 : ℚ)) ((0 : ℚ), (0 : ℚ)) ^ cfgRaw5.beta /
        normFactor cfgRaw5 [((1 : ℚ), ((1 : ℚ), (0 : ℚ)))]
          [((1 : ℚ), ((0 : ℚ), (0 : ℚ)))] :=
  emd_symmetric taxicab cfgRaw5 _ _ _ _ _ _ (fun a b => taxicab_comm a b)
    (computes_single_single taxicab cfgRaw5 ((0 : ℚ), (0 : ℚ))
      ((1 : ℚ), (0 : ℚ)) 1 one_pos)
    (computes_single_single taxicab cfgRaw5 ((1 : ℚ), (0 : ℚ))
      ((0 : ℚ), (0 : ℚ)) 1 one_pos)

/-- The taxicab distance is nonnegative. -/
theorem taxicab_nonneg (p q : ℚ × ℚ) : 0 ≤ taxicab p q :=
  add_nonneg (abs_nonneg _) (abs_nonneg _)

/-- The taxicab distance vanishes on self-pairs. -/
theorem taxicab_self (p : ℚ × ℚ) : taxicab p p = 0 := by
  simp [taxicab]

/-- Claim C8 (amended): for every event `A` with nonnegative weights, every
`beta ≥ 1`, and a nonnegative ground distance assigning zero to self-pairs,
the computed EMD of (A, A) is 0, and 0 is the only computable value. The claim
as stated (every `beta ≥ 0`) fails at `beta = 0`, where `0^0 = 1` makes every
arc cost one unit. -/
theorem emd_self_zero {α : Type} (d : α → α → ℚ) (cfg : EMDConfig)
    (A : Event α) (hd0 : ∀ a b, 0 ≤ d a b) (hself : ∀ a, d a a = 0)
    (hwpos : ∀ p ∈ A, 0 ≤ Prod.fst p) (hβ : 1 ≤ cfg.beta) :
    Computes d cfg A A 0
      (if totalWeight A = 0 then EMDStatus.Empty else EMDStatus.Success) ∧
    (∀ v s, Computes d cfg A A v s → v = 0) := by
  by_cases hz : totalWeight A = 0
  · constructor
    · rw [if_pos hz]
      unfold Computes
      rw [if_pos ⟨hz, hz⟩]
      exact ⟨rfl, rfl⟩
    · intro v s h
      unfold Computes at h
      rw [if_pos ⟨hz, hz⟩] at h
      exact h.1
  · have hopt := isOptimal_self d cfg A hd0 hself hwpos (by omega)
    constructor
    · rw [if_neg hz]
      unfold Computes
      rw [if_neg (fun hh => hz hh.1)]
      exact ⟨rfl, 0, hopt, (zero_div _).symm⟩
    · intro v s h
      unfold Computes at h
      rw [if_neg (fun hh => hz hh.1)] at h
      obtain ⟨-, raw, hropt, hv⟩ := h
      rw [hv, optimal_unique hropt hopt, zero_div]

/-- Witness for C8 at the concrete one-particle event of weight 1. -/
theorem emd_self_zero_witness :
    Computes taxicab cfgRaw5 eventUnit eventUnit 0
      (if totalWeight eventUnit = 0 then EMDStatus.Empty else EMDStatus.Success) :=
  (emd_self_zero taxicab cfgRaw5 eventUnit (fun a b => taxicab_nonneg a b)
    (fun a => taxicab_self a)
    (fun p hp => by
      rw [eventUnit, List.mem_singleton] at hp
      rw [hp]
      norm_num)
    (le_refl 1)).1

/-- The 1x1 self-problem at beta = 0 has optimal cost 1: the single arc costs
`d(a,a)^0 = 1` and the unique feasible flow ships one unit over it. -/
theorem beta0_self_opt :
    IsOptimalValue (assemble taxicab cfgBeta0 eventUnit eventUnit) 1 := by
  have hs : (assemble taxicab cfgBeta0 eventUnit eventUnit).supplies = [1] := by
    simp [assemble, eventUnit, totalWeight]
  have hd : (assemble taxicab cfgBeta0 eventUnit eventUnit).demands = [1] := by
    simp [assemble, eventUnit, totalWeight]
  have h := isOptimal_single_supply hs (by rw [hd]; simp) (by rw [hd]; simp)
  rw [hd] at h
  have hval : (∑ j ∈ Finset.range (([1] : List ℚ)).length, ([1] : List ℚ).getD j 0 *
      (assemble taxicab cfgBeta0 eventUnit eventUnit).cost 0 j) = 1 := by
    rw [show (([1] : List ℚ)).length = 1 from rfl, Finset.sum_range_one]
    rw [assemble_cost_eq taxicab cfgBeta0 eventUnit eventUnit
      (by decide) (by decide)]
    norm_num [cfgBeta0]
  rw [hval] at h
  exact h

/-- Counterexample to claim C8 as stated: at `beta = 0` (allowed by
"beta ≥ 0") with the one-particle event of weight 1 and a ground distance
vanishing on self-pairs, the computed EMD of (A, A) is 1, not 0. -/
theorem emd_self_zero_counterexample :
    Computes taxicab cfgBeta0 eventUnit eventUnit 1 EMDStatus.Success ∧
    ¬ Computes taxicab cfgBeta0 eventUnit eventUnit 0 EMDStatus.Success := by
  have htU : totalWeight eventUnit = 1 := by simp [totalWeight, eventUnit]
  have hcon : ¬ (totalWeight eventUnit = 0 ∧ totalWeight eventUnit = 0) := by
    rw [htU]
    norm_num
  constructor
  · unfold Computes
    rw [if_neg hcon]
    refine ⟨rfl, 1, beta0_self_opt, ?_⟩
    norm_num [normFactor, cfgBeta0]
  · intro h
    unfold Computes at h
    rw [if_neg hcon] at h
    obtain ⟨-, raw, hropt, hv⟩ := h
    rw [optimal_unique hropt beta0_self_opt] at hv
    norm_num [normFactor, cfgBeta0] at hv

/-- Optimal value of the assembled 2-vs-1 scenario problem: supplies `[2]`,
demands `[1, 1]` (real particle + dummy), costs `0` and `R = 5`, so the unique
feasible flow costs `1*0 + 1*5 = 5`. Parametric in the ground distance: only
its value at the shared origin matters. -/
theorem scenario_opt (d : ℚ × ℚ → ℚ × ℚ → ℚ) (cfg : EMDConfig)
    (hd00 : d ((0 : ℚ), (0 : ℚ)) ((0 : ℚ), (0 : ℚ)) = 0)
    (hR : cfg.R = 5) (hb : cfg.beta = 1) (hcut : cfg.dummyCutoff = true) :
    IsOptimalValue (assemble d cfg eventA5 eventB5) 5 := by
  have hs : (assemble d cfg eventA5 eventB5).supplies = [2] := by
    simp only [assemble, eventA5, eventB5, totalWeight, List.map_cons, List.map_nil,
      List.sum_cons, List.sum_nil]
    norm_num
  have hd : (assemble d cfg eventA5 eventB5).demands = [1, 1] := by
    simp only [assemble, eventA5, eventB5, totalWeight, List.map_cons, List.map_nil,
      List.sum_cons, List.sum_nil]
    norm_num
  have h := isOptimal_single_supply hs (by rw [hd]; norm_num)
    (by
      rw [hd]
      intro y hy
      simp only [List.mem_cons, List.not_mem_nil, or_false] at hy
      rcases hy with hy | hy <;> rw [hy] <;> norm_num)
  rw [hd] at h
  have hval : (∑ j ∈ Finset.range (([1, 1] : List ℚ)).length,
      ([1, 1] : List ℚ).getD j 0 * (assemble d cfg eventA5 eventB5).cost 0 j) = 5 := by
    rw [show (([1, 1] : List ℚ)).length = 2 from rfl]
    rw [Finset.sum_range_succ, Finset.sum_range_one]
    rw [assemble_cost_eq d cfg eventA5 eventB5 (by decide) (by decide)]
    rw [assemble_cost_dummy d cfg eventA5 eventB5 (Or.inr (by decide))]
    rw [hcut, if_pos rfl, hR, hb]
    have he : eventA5[0].2 = ((0 : ℚ), (0 : ℚ)) := rfl
    have he' : eventB5[0].2 = ((0 : ℚ), (0 : ℚ)) := rfl
    rw [he, he', hd00]
    norm_num
  rw [hval] at h
  exact h

/-- Claim C5: for A = one particle of weight 2 at (0,0), B = one particle of
weight 1 at (0,0), R = 5, beta = 1, cutoff dummy policy: the dummy absorbs one
unit of supply at distance 5 and the computed EMD is 5/2 with normalization
and 5 without. -/
theorem emd_concrete_scenario :
    Computes taxicab cfgNorm5 eventA5 eventB5 (5 / 2) EMDStatus.Success ∧
    Computes taxicab cfgRaw5 eventA5 eventB5 5 EMDStatus.Success := by
  have htA : totalWeight eventA5 = 2 := by simp [totalWeight, eventA5]
  have hcon : ¬ (totalWeight eventA5 = 0 ∧ totalWeight eventB5 = 0) := by
    rw [htA]
    rintro ⟨hh, -⟩
    norm_num at hh
  constructor
  · unfold Computes
    rw [if_neg hcon]
    refine ⟨rfl, 5, scenario_opt taxicab cfgNorm5 (taxicab_self _) rfl rfl rfl, ?_⟩
    rw [show normFactor cfgNorm5 eventA5 eventB5
        = max (totalWeight eventA5) (totalWeight eventB5) from rfl]
    rw [htA, show totalWeight eventB5 = 1 by simp [totalWeight, eventB5]]
    norm_num
  · unfold Computes
    rw [if_neg hcon]
    refine ⟨rfl, 5, scenario_opt taxicab cfgRaw5 (taxicab_self _) rfl rfl rfl, ?_⟩
    rw [show normFactor cfgRaw5 eventA5 eventB5 = 1 from rfl]
    norm_num

/-- Claim C6 (amended): when normalization is enabled, for events with
nonnegative weights and nonzero totals, a nonnegative ground distance bounded
above by `R`, and `beta ≥ 1`, every computed EMD value lies in
`[0, R ^ beta]` (not `[0, 1]` as claimed: the spec's own 2-vs-1 scenario with
`R = 5` yields `5/2 > 1`). Normalization divides the solver objective by
`max(ΣwA, ΣwB)`. -/
theorem emd_normalized_bounds {α : Type} (d : α → α → ℚ) (cfg : EMDConfig)
    (A B : Event α) (hd0 : ∀ a b, 0 ≤ d a b) (hdR : ∀ a b, d a b ≤ cfg.R)
    (hβ : 1 ≤ cfg.beta) (hnorm : cfg.norm = true)
    (hwA : ∀ p ∈ A, 0 ≤ Prod.fst p) (hwB : ∀ p ∈ B, 0 ≤ Prod.fst p)
    (hA : totalWeight A ≠ 0) (hB : totalWeight B ≠ 0) :
    ∀ v s, Computes d cfg A B v s → 0 ≤ v ∧ v ≤ cfg.R ^ cfg.beta := by
  intro v s h
  have hAne : A ≠ [] := fun he => hA (by rw [he]; rfl)
  obtain ⟨p0, hp0⟩ := List.exists_mem_of_ne_nil A hAne
  have hR : 0 ≤ cfg.R := le_trans (hd0 p0.2 p0.2) (hdR p0.2 p0.2)
  have hwAnn : 0 ≤ totalWeight A := by
    refine List.sum_nonneg fun x hx => ?_
    obtain ⟨p, hp, hpe⟩ := List.mem_map.mp hx
    exact hpe ▸ hwA p hp
  have hApos : 0 < totalWeight A := lt_of_le_of_ne hwAnn (Ne.symm hA)
  have hM : 0 < max (totalWeight A) (totalWeight B) :=
    lt_of_lt_of_le hApos (le_max_left _ _)
  unfold Computes at h
  rw [if_neg (fun hh => hA hh.1)] at h
  obtain ⟨-, raw, hopt, hv⟩ := h
  obtain ⟨⟨f, hf, hfc⟩, -⟩ := hopt
  have hdummy : 0 ≤ (if cfg.dummyCutoff then cfg.R ^ cfg.beta else 0) ∧
      (if cfg.dummyCutoff then cfg.R ^ cfg.beta else 0) ≤ cfg.R ^ cfg.beta := by
    cases hcut : cfg.dummyCutoff <;> simp [pow_nonneg hR]
  have hcost : ∀ i < (assemble d cfg A B).supplies.length,
      ∀ j < (assemble d cfg A B).demands.length,
      0 ≤ (assemble d cfg A B).cost i j ∧
        (assemble d cfg A B).cost i j ≤ cfg.R ^ cfg.beta := by
    intro i _ j _
    by_cases hi' : i < A.length
    · by_cases hj' : j < B.length
      · rw [assemble_cost_eq d cfg A B hi' hj']
        exact ⟨pow_nonneg (hd0 _ _) _, pow_le_pow_left₀ (hd0 _ _) (hdR _ _) _⟩
      · rw [assemble_cost_dummy d cfg A B (Or.inr (not_lt.mp hj'))]
        exact hdummy
    · rw [assemble_cost_dummy d cfg A B (Or.inl (not_lt.mp hi'))]
      exact hdummy
  have h0 : 0 ≤ raw := by
    rw [← hfc]
    exact flowCost_nonneg hf fun i hi j hj => (hcost i hi j hj).1
  have h1 : raw ≤ cfg.R ^ cfg.beta * max (totalWeight A) (totalWeight B) := by
    rw [← hfc]
    have hb := flowCost_le_bound hf fun i hi j hj => (hcost i hi j hj).2
    rw [assemble_supplies_sum] at hb
    exact hb
  have hnf : normFactor cfg A B = max (totalWeight A) (totalWeight B) := by
    unfold normFactor
    rw [hnorm]
    rfl
  rw [hv, hnf]
  exact ⟨div_nonneg h0 hM.le, (div_le_iff₀ hM).mpr (by linarith [h1])⟩

/-- Witness for C6 (amended) with the zero ground distance, R = 1, beta = 1,
normalization on, at two copies of the unit event. -/
theorem emd_normalized_bounds_witness :
    0 ≤ 1 * zeroDist ((0 : ℚ), (0 : ℚ)) ((0 : ℚ), (0 : ℚ)) ^ cfgNormUnit.beta /
        normFactor cfgNormUnit eventUnit eventUnit ∧
    1 * zeroDist ((0 : ℚ), (0 : ℚ)) ((0 : ℚ), (0 : ℚ)) ^ cfgNormUnit.beta /
        normFactor cfgNormUnit eventUnit eventUnit ≤
      cfgNormUnit.R ^ cfgNormUnit.beta :=
  emd_normalized_bounds zeroDist cfgNormUnit eventUnit eventUnit
    (fun _ _ => le_refl 0)
    (fun _ _ => by norm_num [zeroDist, cfgNormUnit])
    (le_refl 1) rfl
    (fun p hp => by
      rw [eventUnit, List.mem_singleton] at hp
      rw [hp]
      norm_num)
    (fun p hp => by
      rw [eventUnit, List.mem_singleton] at hp
      rw [hp]
      norm_num)
    (by norm_num [totalWeight, eventUnit])
    (by norm_num [totalWeight, eventUnit])
    _ EMDStatus.Success
    (computes_single_single zeroDist cfgNormUnit ((0 : ℚ), (0 : ℚ))
      ((0 : ℚ), (0 : ℚ)) 1 one_pos)

/-- Counterexample to claim C6 as stated: with normalization enabled, the zero
ground distance (bounded above by R = 5), beta = 1 ≥ 1, and the nonzero-total
events of the spec's own 2-vs-1 scenario, the computed EMD is 5/2, which is
not in [0, 1]. -/
theorem emd_normalized_bounds_counterexample :
    cfgNorm5.norm = true ∧
    Computes zeroDist cfgNorm5 eventA5 eventB5 (5 / 2) EMDStatus.Success ∧
    ¬ ((5 : ℚ) / 2 ≤ 1) := by
  refine ⟨rfl, ?_, by norm_num⟩
  have htA : totalWeight eventA5 = 2 := by simp [totalWeight, eventA5]
  have hcon : ¬ (totalWeight eventA5 = 0 ∧ totalWeight eventB5 = 0) := by
    rw [htA]
    rintro ⟨hh, -⟩
    norm_num at hh
  unfold Computes
  rw [if_neg hcon]
  refine ⟨rfl, 5, scenario_opt zeroDist cfgNorm5 rfl rfl rfl rfl, ?_⟩
  rw [show normFactor cfgNorm5 eventA5 eventB5
      = max (totalWeight eventA5) (totalWeight eventB5) from rfl]
  rw [htA, show totalWeight eventB5 = 1 by simp [totalWeight, eventB5]]
  norm_num

/-- Twice the n-th triangular number is `n * (n - 1)`. -/
theorem two_mul_triangle : ∀ n : ℕ, 2 * triangle n = n * (n - 1)
  | 0 => rfl
  | n + 1 => by
      have ih := two_mul_triangle n
      unfold triangle
      cases n with
      | zero => rfl
      | succ m =>
          rw [Nat.mul_add, ih]
          simp only [Nat.succ_sub_one]
          ring

/-- The pair-rank function in terms of triangular numbers. -/
theorem pairIndex_eq_triangle (i j : ℕ) : pairIndex i j = triangle j + i := by
  unfold pairIndex
  rw [← two_mul_triangle j, Nat.mul_div_cancel_left _ (by norm_num : 0 < 2)]

/-- Triangular numbers are monotone. -/
theorem triangle_le_triangle {a b : ℕ} (h : a ≤ b) : triangle a ≤ triangle b := by
  induction h with
  | refl => exact le_refl _
  | step _ ih => exact le_trans ih (Nat.le_add_right _ _)

/-- Length of a rank-ordered sweep whose j-th block has length j. -/
theorem sweep_length (g : ℕ → List ℚ) (hg : ∀ j, (g j).length = j) (n : ℕ) :
    ((List.range n).flatMap g).length = triangle n := by
  induction n with
  | zero => rfl
  | succ m ih =>
      rw [List.range_succ, List.flatMap_append, List.length_append, ih]
      rw [show ([m].flatMap g) = g m ++ [] from rfl, List.append_nil, hg]
      rfl

/-- Indexing a rank-ordered sweep at `triangle j + i` lands in block `j` at
offset `i`. -/
theorem sweep_getD (g : ℕ → List ℚ) (hg : ∀ j, (g j).length = j) :
    ∀ n i j, i < j → j < n →
      ((List.range n).flatMap g).getD (triangle j + i) 0 = (g j).getD i 0 := by
  intro n
  induction n with
  | zero => intro i j _ hjn; exact absurd hjn (Nat.not_lt_zero j)
  | succ m ih =>
      intro i j hij hjn
      rw [List.range_succ, List.flatMap_append]
      by_cases hjm : j < m
      · rw [List.getD_append]
        · exact ih i j hij hjm
        · rw [sweep_length g hg]
          have h1 : triangle j + i < triangle (j + 1) := by
            have ht : triangle (j + 1) = triangle j + j := rfl
            omega
          exact lt_of_lt_of_le h1 (triangle_le_triangle hjm)
      · have hjm' : j = m := by omega
        subst hjm'
        rw [List.getD_append_right _ _ _ _ (by rw [sweep_length g hg]; omega)]
        rw [sweep_length g hg, Nat.add_sub_cancel_left]
        rw [show ([j].flatMap g) = g j ++ [] from rfl, List.append_nil]

/-- Claim C9: the value stored by the all-pairs sweep at the slot of the pair
(i, j), i < j, equals the value produced by calling the single-pair EMD
computation directly on (events i, events j) with identical configuration. -/
theorem pairwise_consistent {α : Type} (emdVal : Event α → Event α → ℚ)
    (events : List (Event α)) (i j : ℕ) (hij : i < j) (hjn : j < events.length) :
    (allPairsSweep emdVal events).getD (pairIndex i j) 0
      = emdVal (events.getD i []) (events.getD j []) := by
  unfold allPairsSweep
  rw [pairIndex_eq_triangle]
  have hg : ∀ k : ℕ, ((List.range k).map fun i' =>
      emdVal (events.getD i' []) (events.getD k [])).length = k := by
    intro k
    rw [List.length_map, List.length_range]
  rw [sweep_getD _ hg events.length i j hij hjn]
  rw [List.getD_eq_getElem _ _ (by rw [hg]; exact hij)]
  rw [List.getElem_map, List.getElem_range]

/-- Witness for C9 on a concrete two-event collection at pair (0, 1). -/
theorem pairwise_consistent_witness :
    (allPairsSweep (fun a b => totalWeight a + totalWeight b)
        [eventUnit, eventA5]).getD (pairIndex 0 1) 0
      = (fun a b => totalWeight a + totalWeight b)
          (([eventUnit, eventA5] : List (Event (ℚ × ℚ))).getD 0 [])
          (([eventUnit, eventA5] : List (Event (ℚ × ℚ))).getD 1 []) :=
  pairwise_consistent (fun a b => totalWeight a + totalWeight b)
    [eventUnit, eventA5] 0 1 (by decide) (by decide)

/-- Witness for C4 at the concrete scenario events (ΣwA = 2 > ΣwB = 1): the
dummy lands on event 1's side and the totals balance. -/
theorem assemble_dummy_balances_witness :
    (assemble taxicab cfgNorm5 eventA5 eventB5).demands
        = List.map Prod.fst eventB5 ++ [totalWeight eventA5 - totalWeight eventB5] ∧
    extraParticleOf eventA5 eventB5 = ExtraParticle.One ∧
    (assemble taxicab cfgNorm5 eventA5 eventB5).supplies.sum
        = (assemble taxicab cfgNorm5 eventA5 eventB5).demands.sum := by
  obtain ⟨-, -, -, h4, h5⟩ := assemble_dummy_balances taxicab cfgNorm5 eventA5 eventB5
  have hlt : totalWeight eventB5 < totalWeight eventA5 := by
    simp only [totalWeight, eventA5, eventB5, List.map_cons, List.map_nil,
      List.sum_cons, List.sum_nil]
    norm_num
  exact ⟨(h4 hlt).2.1, (h4 hlt).2.2, h5⟩

end Wasserstein
